import Mathlib

/-!
Verification of the `Check` business logic of the github-pr-resource repository
(package `resource`, file with `Check`, `AboveTheFold`, `GenerateVersion`,
`ExtractVersionFromVersionString`, plus the `models` declarations).

Go strings are modelled as `List Char`; Go's `strings.Split`/`Join`/`Contains`
with one-character separators, `strconv.Itoa`/`FormatInt`/`ParseInt`/`ParseBool`
are embedded below.  Timestamps (`time.Time` values handled only through
`Unix()` seconds, `time.Unix(sec, 0)` and `After`) are modelled as `Int` unix
seconds.  Fallible Go code, including the two run-time panics reachable inside
`ExtractVersionFromVersionString` (a `panic(err)` after a failed `ParseInt`,
and an index-out-of-range on `pairs[1]`), is modelled with `Except`.
-/

/-- A Go string, as its sequence of characters. -/
abbrev GoString := List Char

/-- Coerce a Lean string literal to the `GoString` model. -/
def gs (s : String) : GoString := s.data

/-- Go `strings.Contains(s, string(c))` for a one-character needle. -/
def goContains (s : GoString) (c : Char) : Bool := s.any (fun x => x = c)

/-- Go `strings.Split(s, string(sep))` for a one-character separator:
splits around every occurrence of `sep`; the empty string yields `[""]`. -/
def splitChar (sep : Char) : GoString → List GoString
  | [] => [[]]
  | c :: cs =>
    if c = sep then [] :: splitChar sep cs
    else
      match splitChar sep cs with
      | [] => [[c]]
      | f :: fs => (c :: f) :: fs

/-- Go `strings.Join(ps, string(sep))` for a one-character separator. -/
def joinChar (sep : Char) : List GoString → GoString
  | [] => []
  | [x] => x
  | x :: xs => x ++ sep :: joinChar sep xs

/-- Decimal digits of `n`, most significant first; `fuel` bounds the recursion
(`n + 1` steps always suffice since the argument shrinks by a factor of 10). -/
def natCharsFuel : Nat → Nat → GoString
  | 0, _ => []
  | fuel + 1, n =>
    if n < 10 then [Nat.digitChar n]
    else natCharsFuel fuel (n / 10) ++ [Nat.digitChar (n % 10)]

/-- Go `strconv.Itoa` / `strconv.FormatInt(i, 10)`: decimal rendering with a
leading minus sign for negative values. -/
def itoa (i : Int) : GoString :=
  if i < 0 then '-' :: natCharsFuel (i.natAbs + 1) i.natAbs
  else natCharsFuel (i.toNat + 1) i.toNat

/-- Numeric value of a decimal digit character, if it is one. -/
def digitVal (c : Char) : Option Nat :=
  if '0' ≤ c ∧ c ≤ '9' then some (c.toNat - '0'.toNat) else none

/-- Accumulating base-10 parse of a digit string; fails on a non-digit. -/
def parseNatAux (acc : Nat) : GoString → Option Nat
  | [] => some acc
  | c :: cs =>
    match digitVal c with
    | none => none
    | some d => parseNatAux (acc * 10 + d) cs

/-- Smallest value of a Go `int64`. -/
def int64Min : Int := -(2 ^ 63)

/-- Largest value of a Go `int64`. -/
def int64Max : Int := 2 ^ 63 - 1

/-- Go `strconv.ParseInt(s, 10, 64)`: optional sign, at least one decimal
digit, nothing else, and the value must fit in an `int64` (otherwise Go
reports `ErrRange`; every error is collapsed to `none` here). -/
def parseInt64 (s : GoString) : Option Int :=
  match s with
  | [] => none
  | c :: cs =>
    let signDigits : Bool × GoString :=
      if c = '-' then (true, cs) else if c = '+' then (false, cs) else (false, s)
    match signDigits with
    | (neg, digits) =>
      match digits with
      | [] => none
      | _ :: _ =>
        match parseNatAux 0 digits with
        | none => none
        | some n =>
          let v : Int := if neg then -(n : Int) else (n : Int)
          if v < int64Min ∨ int64Max < v then none else some v

/-- Go `strconv.ParseBool`: accepts exactly the twelve literal spellings. -/
def parseBool (s : GoString) : Option Bool :=
  if s = gs "1" ∨ s = gs "t" ∨ s = gs "T" ∨ s = gs "TRUE" ∨ s = gs "true" ∨ s = gs "True" then
    some true
  else if s = gs "0" ∨ s = gs "f" ∨ s = gs "F" ∨ s = gs "FALSE" ∨ s = gs "false" ∨ s = gs "False" then
    some false
  else none

/-- Everything of `CommitObject` that `Check` reads (`ID`, `CommittedDate` as
unix seconds, `Message`); metadata fields unused by `Check` are omitted. -/
structure CommitObject where
  id : GoString
  committedDate : Int
  message : GoString
deriving DecidableEq

/-- Everything of `PullRequest`/`PullRequestObject` that `Check` reads. -/
structure PullRequest where
  id : GoString
  number : Int
  title : GoString
  tip : CommitObject
deriving DecidableEq

/-- `Version` communicated with the caller (`pr`, `commit`, `committed`,
`alreadyseen`). -/
structure Version where
  pr : GoString
  commit : GoString
  committedDate : Int
  alreadySeen : GoString
deriving DecidableEq

/-- The `Source` fields `Check` reads (`Paths`, `IgnorePaths`,
`DisableCISkip`); credentials and endpoints are never consulted by `Check`. -/
structure Source where
  paths : List GoString
  ignorePaths : List GoString
  disableCISkip : GoString
deriving DecidableEq

/-- `CheckRequest`. -/
structure CheckRequest where
  source : Source
  version : Version
deriving DecidableEq

/-- `CheckResponse`. -/
abbrev CheckResponse := List Version

/-- `AlreadySeenVersion`: one decoded ledger pair. -/
structure AlreadySeenVersion where
  pr : GoString
  committedDate : Int
deriving DecidableEq

/-- The `Github` collaborator interface, restricted to the two calls `Check`
makes; each call is an observation fixed for the single invocation. -/
structure Github where
  listOpenPullRequests : Except GoString (List PullRequest)
  listModifiedFiles : Int → Except GoString (List GoString)

/-- Every way the embedded `Check` can abort: the wrapped `fmt.Errorf`
returns, plus the two panics inside `ExtractVersionFromVersionString`. -/
inductive CheckErr where
  | listPullsFailed (msg : GoString)
  | parseBoolFailed (s : GoString)
  | listFilesFailed (msg : GoString)
  | pathMatchFailed (msg : GoString)
  | ignorePathMatchFailed (msg : GoString)
  | malformedLedgerEntry (field : GoString)
  | indexOutOfRange
deriving DecidableEq

/-- `NewVersion` constructs a new `Version`. -/
def NewVersion (p : PullRequest) (alreadySeen : GoString) : Version :=
  { pr := p.id
    commit := p.tip.id
    committedDate := p.tip.committedDate
    alreadySeen := alreadySeen }

/-- `GetVersionStringFromPullRequest`: `Itoa(Number) + ":" + FormatInt(Unix)`. -/
def GetVersionStringFromPullRequest (p : PullRequest) : GoString :=
  itoa p.number ++ ':' :: itoa p.tip.committedDate

/-- `GenerateVersion`: the `PR#:CommittedDate` pairs joined with commas. -/
def GenerateVersion (pulls : List PullRequest) : GoString :=
  joinChar ',' (pulls.map GetVersionStringFromPullRequest)

/-- `ExtractVersionFromVersionString`: split on `:`; `pairs[1]` panics with an
index-out-of-range when there is no second field, and a failed `ParseInt`
panics with the parse error (modelled as `malformedLedgerEntry`). -/
def ExtractVersionFromVersionString (alreadySeenPair : GoString) :
    Except CheckErr AlreadySeenVersion :=
  match splitChar ':' alreadySeenPair with
  | [] => .error .indexOutOfRange
  | [_] => .error .indexOutOfRange
  | p0 :: p1 :: _ =>
    match parseInt64 p1 with
    | none => .error (.malformedLedgerEntry p1)
    | some n => .ok { pr := p0, committedDate := n }

/-- The entry loop of `AboveTheFold`, carrying the two mutable booleans
(`isAboveTheFold`, `isFoundInPairs`); `After` is strict comparison. -/
def aboveTheFoldLoop (pullRequest : AlreadySeenVersion) :
    List GoString → Bool → Bool → Except CheckErr (Bool × Bool)
  | [], above, found => .ok (above, found)
  | pair :: rest, above, found =>
    match ExtractVersionFromVersionString pair with
    | .error e => .error e
    | .ok thisPairVersion =>
      if thisPairVersion.pr = pullRequest.pr then
        aboveTheFoldLoop pullRequest rest
          (above || decide (thisPairVersion.committedDate < pullRequest.committedDate)) true
      else
        aboveTheFoldLoop pullRequest rest above found

/-- `AboveTheFold`. -/
def AboveTheFold (pullRequestVersion alreadySeen : GoString) : Except CheckErr Bool :=
  if goContains alreadySeen ':' = false then .ok true
  else
    match ExtractVersionFromVersionString pullRequestVersion with
    | .error e => .error e
    | .ok pullRequest =>
      match aboveTheFoldLoop pullRequest (splitChar ',' alreadySeen) false false with
      | .error e => .error e
      | .ok (above, found) => .ok (if found then above else true)

/-- ASCII lowering of a string (the `(?i)` of the skip-CI pattern). -/
def toLowerStr (s : GoString) : GoString := s.map Char.toLower

/-- Whether `pat` begins `s`. -/
def startsWith : GoString → GoString → Bool
  | _, [] => true
  | [], _ :: _ => false
  | c :: cs, p :: ps => (c = p) && startsWith cs ps

/-- Whether `pat` occurs anywhere inside `s`. -/
def containsSub : GoString → GoString → Bool
  | [], pat => startsWith [] pat
  | c :: cs, pat => startsWith (c :: cs) pat || containsSub cs pat

/-- `ContainsSkipCI`: the regexp `(?i)\[(ci skip|skip ci)\]` as a
case-insensitive substring search for the two bracketed markers. -/
def ContainsSkipCI (s : GoString) : Bool :=
  containsSub (toLowerStr s) (gs "[ci skip]") || containsSub (toLowerStr s) (gs "[skip ci]")

/-- `FilterPath`, with `filepath.Match` supplied as `fpMatch pattern file`. -/
def FilterPath (fpMatch : GoString → GoString → Except GoString Bool)
    (files : List GoString) (pattern : GoString) : Except GoString (List GoString) :=
  match files with
  | [] => .ok []
  | f :: fs =>
    match fpMatch pattern f with
    | .error e => .error e
    | .ok b =>
      match FilterPath fpMatch fs pattern with
      | .error e => .error e
      | .ok out => .ok (if b then f :: out else out)

/-- `FilterIgnorePath`: keeps the files the pattern does not match. -/
def FilterIgnorePath (fpMatch : GoString → GoString → Except GoString Bool)
    (files : List GoString) (pattern : GoString) : Except GoString (List GoString) :=
  match files with
  | [] => .ok []
  | f :: fs =>
    match fpMatch pattern f with
    | .error e => .error e
    | .ok b =>
      match FilterIgnorePath fpMatch fs pattern with
      | .error e => .error e
      | .ok out => .ok (if b then out else f :: out)

/-- The `Paths` block of the loop body: `wanted` collects the matches of every
configured pattern. -/
def filterPathsLoop (fpMatch : GoString → GoString → Except GoString Bool)
    (files : List GoString) : List GoString → Except GoString (List GoString)
  | [] => .ok []
  | pat :: pats =>
    match FilterPath fpMatch files pat with
    | .error e => .error e
    | .ok w =>
      match filterPathsLoop fpMatch files pats with
      | .error e => .error e
      | .ok rest => .ok (w ++ rest)

/-- The `IgnorePaths` block of the loop body: `wanted` starts as `files` and
is filtered by every configured pattern in turn. -/
def filterIgnoreLoop (fpMatch : GoString → GoString → Except GoString Bool)
    (wanted : List GoString) : List GoString → Except GoString (List GoString)
  | [] => .ok wanted
  | pat :: pats =>
    match FilterIgnorePath fpMatch wanted pat with
    | .error e => .error e
    | .ok w => filterIgnoreLoop fpMatch w pats

/-- The tail of the loop body once path filtering kept the record: classify it
against the previous ledger (`some b` = classified, `none` = `continue Loop`). -/
def foldStep (alreadySeen : GoString) (p : PullRequest) : Except CheckErr (Option Bool) :=
  match AboveTheFold (GetVersionStringFromPullRequest p) alreadySeen with
  | .error e => .error e
  | .ok b => .ok (some b)

/-- The `IgnorePaths` gate of the loop body (`continue Loop` when every file
is ignored). -/
def ignoreGate (fpMatch : GoString → GoString → Except GoString Bool) (source : Source)
    (alreadySeen : GoString) (files : List GoString) (p : PullRequest) :
    Except CheckErr (Option Bool) :=
  if 0 < source.ignorePaths.length then
    match filterIgnoreLoop fpMatch files source.ignorePaths with
    | .error e => .error (.ignorePathMatchFailed e)
    | .ok wanted => if wanted = [] then .ok none else foldStep alreadySeen p
  else foldStep alreadySeen p

/-- The `Paths` gate of the loop body (`continue Loop` when no file matches). -/
def pathGate (fpMatch : GoString → GoString → Except GoString Bool) (source : Source)
    (alreadySeen : GoString) (files : List GoString) (p : PullRequest) :
    Except CheckErr (Option Bool) :=
  if 0 < source.paths.length then
    match filterPathsLoop fpMatch files source.paths with
    | .error e => .error (.pathMatchFailed e)
    | .ok wanted =>
      if wanted = [] then .ok none else ignoreGate fpMatch source alreadySeen files p
  else ignoreGate fpMatch source alreadySeen files p

/-- One iteration of the `Loop` over the snapshot: skip-CI checks, the single
`ListModifiedFiles` fetch, both path gates, then the fold classification. -/
def classifyPull (fpMatch : GoString → GoString → Except GoString Bool) (manager : Github)
    (source : Source) (disableSkipCI : Bool) (alreadySeen : GoString) (p : PullRequest) :
    Except CheckErr (Option Bool) :=
  if !disableSkipCI && ContainsSkipCI p.title then .ok none
  else if !disableSkipCI && ContainsSkipCI p.tip.message then .ok none
  else
    match
      (if 0 < source.paths.length || 0 < source.ignorePaths.length then
        manager.listModifiedFiles p.number
      else .ok []) with
    | .error e => .error (.listFilesFailed e)
    | .ok files => pathGate fpMatch source alreadySeen files p

/-- The whole `Loop`, producing (`newPullsToReturn`, `alreadySeenPullsToHide`)
in encounter order. -/
def checkLoop (fpMatch : GoString → GoString → Except GoString Bool) (manager : Github)
    (source : Source) (disableSkipCI : Bool) (alreadySeen : GoString) :
    List PullRequest → Except CheckErr (List PullRequest × List PullRequest)
  | [] => .ok ([], [])
  | p :: rest =>
    match classifyPull fpMatch manager source disableSkipCI alreadySeen p with
    | .error e => .error e
    | .ok none => checkLoop fpMatch manager source disableSkipCI alreadySeen rest
    | .ok (some above) =>
      match checkLoop fpMatch manager source disableSkipCI alreadySeen rest with
      | .error e => .error e
      | .ok (newP, hideP) =>
        .ok (if above then (p :: newP, hideP) else (newP, p :: hideP))

/-- The comparator of `Pulls` (`r[j].Number > r[i].Number`): ascending by
record sequence id. -/
def pullLe (a b : PullRequest) : Prop := a.number ≤ b.number

instance : DecidableRel pullLe := fun a b => Int.decLe a.number b.number

/-- The comparator of `CheckResponse` (`r[j].CommittedDate.After(r[i].…)`):
ascending by committed timestamp. -/
def versionLe (a b : Version) : Prop := a.committedDate ≤ b.committedDate

instance : DecidableRel versionLe := fun a b => Int.decLe a.committedDate b.committedDate

/-- `sort.Sort(combinedVersions)`; Go's sort is unstable but agrees with any
correct sort, insertion sort here, up to reordering of equal keys. -/
def sortPulls (l : List PullRequest) : List PullRequest := l.insertionSort pullLe

/-- `sort.Sort(response)`. -/
def sortResponse (r : CheckResponse) : CheckResponse := r.insertionSort versionLe

/-- The two response rewrites at the end of `Check`: re-emit the previous
`Version` when nothing is new but a ledger existed, and collapse to the last
(highest-committed-date, post-sort) element when there was no previous ledger
(`response[len(response)-1]`, taken from a list the guard proves non-empty,
is `getLastD`). -/
def assemblePolicy (prevVersion : Version) (response : CheckResponse) : CheckResponse :=
  if (if response = [] ∧ prevVersion.alreadySeen ≠ [] then [prevVersion] else response) ≠ [] ∧
      prevVersion.alreadySeen = [] then
    [(if response = [] ∧ prevVersion.alreadySeen ≠ [] then [prevVersion]
      else response).getLastD prevVersion]
  else if response = [] ∧ prevVersion.alreadySeen ≠ [] then [prevVersion] else response

/-- Lines 307–326 of `Check`: rebuild the ledger from the full reordered
snapshot, emit one `Version` per new record, sort by committed date, then
apply the steady-state / bootstrap policy.  This is the no-aliasing reading
of the response loop, ranging over the records classified above the fold (the
behaviour the loop's own comment describes); when Go's
`append(newPullsToReturn, alreadySeenPullsToHide...)` reuses the backing
array, the running code instead ranges over a prefix scrambled by the
in-place sort — `responseGo`/`CheckGo` below model that slice semantics. -/
def assembleResponse (prevVersion : Version)
    (newPullsToReturn alreadySeenPullsToHide : List PullRequest) : CheckResponse :=
  assemblePolicy prevVersion
    (sortResponse (newPullsToReturn.map (fun p =>
      NewVersion p (GenerateVersion (sortPulls (newPullsToReturn ++ alreadySeenPullsToHide))))))

/-- `Check` (business logic): list the open records, parse `DisableCISkip`,
run the loop, assemble the response. -/
def Check (fpMatch : GoString → GoString → Except GoString Bool) (request : CheckRequest)
    (manager : Github) : Except CheckErr CheckResponse :=
  match manager.listOpenPullRequests with
  | .error e => .error (.listPullsFailed e)
  | .ok pulls =>
    match
      (if request.source.disableCISkip ≠ [] then
        match parseBool request.source.disableCISkip with
        | none => Except.error (CheckErr.parseBoolFailed request.source.disableCISkip)
        | some b => Except.ok b
      else Except.ok false) with
    | .error e => .error e
    | .ok disableSkipCI =>
      match checkLoop fpMatch manager request.source disableSkipCI
          request.version.alreadySeen pulls with
      | .error e => .error e
      | .ok (newPullsToReturn, alreadySeenPullsToHide) =>
        .ok (assembleResponse request.version newPullsToReturn alreadySeenPullsToHide)

/-- Decode a list of ledger entry strings, stopping at the first failure, the
way the `AboveTheFold` loop visits them. -/
def decodeEntryList : List GoString → Except CheckErr (List AlreadySeenVersion)
  | [] => .ok []
  | e :: es =>
    match ExtractVersionFromVersionString e with
    | .error err => .error err
    | .ok v =>
      match decodeEntryList es with
      | .error err => .error err
      | .ok vs => .ok (v :: vs)

/-- Decode a whole ledger string: split on commas, decode every entry. -/
def decodeLedger (ledger : GoString) : Except CheckErr (List AlreadySeenVersion) :=
  decodeEntryList (splitChar ',' ledger)

/-- A single ledger entry string decodes without an error. -/
def entryOk (e : GoString) : Bool := (ExtractVersionFromVersionString e).isOk

/-- The previous ledger never makes `AboveTheFold` panic: either it carries no
colon at all, or every comma-separated entry decodes. -/
def ledgerOk (s : GoString) : Bool :=
  !goContains s ':' || (splitChar ',' s).all entryOk

/-- A `Source` that presents the whole snapshot to the resolver core: no path
filters and skip-CI detection disabled, matching the spec's stance that the
snapshot arrives already filtered. -/
def coreSource : Source :=
  { paths := [], ignorePaths := [], disableCISkip := gs "true" }

instance {ε α : Type} [DecidableEq ε] [DecidableEq α] : DecidableEq (Except ε α) := fun a b =>
  match a, b with
  | .error e1, .error e2 => decidable_of_iff (e1 = e2) (by simp)
  | .error _, .ok _ => isFalse (by simp)
  | .ok _, .error _ => isFalse (by simp)
  | .ok x, .ok y => decidable_of_iff (x = y) (by simp)

instance : IsTotal Version versionLe :=
  ⟨fun a b => Int.le_total a.committedDate b.committedDate⟩

instance : IsTrans Version versionLe :=
  ⟨fun _ _ _ h1 h2 => le_trans h1 h2⟩

/-- A glob matcher observation for the concrete instances below (never
consulted, because the core configuration has no path filters). -/
def fpNone : GoString → GoString → Except GoString Bool := fun _ _ => .ok false

/-- A concrete record with sequence id 1 and tip timestamp 5. -/
def pull1 : PullRequest :=
  { id := gs "I1", number := 1, title := gs "t1",
    tip := { id := gs "T1", committedDate := 5, message := gs "m1" } }

/-- A concrete record with sequence id 2 and tip timestamp 9. -/
def pull2 : PullRequest :=
  { id := gs "I2", number := 2, title := gs "t2",
    tip := { id := gs "T2", committedDate := 9, message := gs "m2" } }

/-- A manager observation returning the given snapshot and no modified files. -/
def ghOf (pulls : List PullRequest) : Github :=
  { listOpenPullRequests := .ok pulls, listModifiedFiles := fun _ => .ok [] }

/-- A previous `Version` carrying the given ledger string. -/
def verOf (seen : GoString) : Version :=
  { pr := gs "P", commit := gs "C", committedDate := 5, alreadySeen := seen }

/-- A core-configuration request carrying the given previous ledger string. -/
def reqOf (seen : GoString) : CheckRequest :=
  { source := coreSource, version := verOf seen }

/-- Capacity of a Go slice built by appending elements one at a time to a nil
slice: `growslice` doubles the capacity of small slices, so it is the least
power of two at least the length (the length bounds the doubling loop). -/
def goCapAux : Nat → Nat → Nat → Nat
  | 0, c, _ => c
  | fuel + 1, c, n => if n ≤ c then c else goCapAux fuel (c * 2) n

/-- Capacity after `n` one-element appends starting from a nil slice. -/
def goCap (n : Nat) : Nat := if n = 0 then 0 else goCapAux n 1 n

/-- Lines 307–316 of `Check` under Go's slice semantics:
`append(newPullsToReturn, alreadySeenPullsToHide...)` reuses
`newPullsToReturn`'s backing array whenever the combined length fits its
capacity; the in-place `sort.Sort(combinedVersions)` then reorders the prefix
that `newPullsToReturn` still views, and the response loop ranges over that
scrambled prefix instead of the records classified above the fold. -/
def responseGo (newPullsToReturn alreadySeenPullsToHide : List PullRequest) : CheckResponse :=
  let combinedVersions := sortPulls (newPullsToReturn ++ alreadySeenPullsToHide)
  let versionsJustSeen := GenerateVersion combinedVersions
  let iterated :=
    if newPullsToReturn.length + alreadySeenPullsToHide.length ≤
        goCap newPullsToReturn.length then
      combinedVersions.take newPullsToReturn.length
    else newPullsToReturn
  sortResponse (iterated.map (fun p => NewVersion p versionsJustSeen))

/-- Lines 307–326 of `Check` under Go's slice semantics. -/
def assembleResponseGo (prevVersion : Version)
    (newPullsToReturn alreadySeenPullsToHide : List PullRequest) : CheckResponse :=
  assemblePolicy prevVersion (responseGo newPullsToReturn alreadySeenPullsToHide)

/-- `Check` under Go's slice semantics: identical to `Check` except that the
output `Version`s are built from the prefix the aliased `newPullsToReturn`
views after the in-place sort of `combinedVersions`. -/
def CheckGo (fpMatch : GoString → GoString → Except GoString Bool) (request : CheckRequest)
    (manager : Github) : Except CheckErr CheckResponse :=
  match manager.listOpenPullRequests with
  | .error e => .error (.listPullsFailed e)
  | .ok pulls =>
    match
      (if request.source.disableCISkip ≠ [] then
        match parseBool request.source.disableCISkip with
        | none => Except.error (CheckErr.parseBoolFailed request.source.disableCISkip)
        | some b => Except.ok b
      else Except.ok false) with
    | .error e => .error e
    | .ok disableSkipCI =>
      match checkLoop fpMatch manager request.source disableSkipCI
          request.version.alreadySeen pulls with
      | .error e => .error e
      | .ok (newPullsToReturn, alreadySeenPullsToHide) =>
        .ok (assembleResponseGo request.version newPullsToReturn alreadySeenPullsToHide)

/-- A record that advanced (ledger entry `4:40`, tip now 41); appended third,
so the new-records slice reaches length 3 inside capacity 4. -/
def pullA : PullRequest :=
  { id := gs "IA", number := 4, title := gs "tA",
    tip := { id := gs "TA", committedDate := 41, message := gs "mA" } }

/-- A record that advanced (ledger entry `2:20`, tip now 21). -/
def pullB : PullRequest :=
  { id := gs "IB", number := 2, title := gs "tB",
    tip := { id := gs "TB", committedDate := 21, message := gs "mB" } }

/-- A record that advanced (ledger entry `3:30`, tip now 31). -/
def pullC : PullRequest :=
  { id := gs "IC", number := 3, title := gs "tC",
    tip := { id := gs "TC", committedDate := 31, message := gs "mC" } }

/-- The record whose tip timestamp 10 exactly equals its ledger entry `1:10`:
below the fold, and first in the sequence-id order the combined slice is
sorted into. -/
def pullD : PullRequest :=
  { id := gs "ID", number := 1, title := gs "tD",
    tip := { id := gs "TD", committedDate := 10, message := gs "mD" } }

/-! ### Properties of the embedded Go string primitives -/

theorem goContains_iff {s : GoString} {c : Char} : goContains s c = true ↔ c ∈ s := by
  simp only [goContains, List.any_eq_true, decide_eq_true_eq]
  exact ⟨fun ⟨x, hx, he⟩ => he ▸ hx, fun h => ⟨c, h, rfl⟩⟩

theorem goContains_eq_false_iff {s : GoString} {c : Char} :
    goContains s c = false ↔ c ∉ s := by
  constructor
  · intro h hm
    rw [goContains_iff.mpr hm] at h
    cases h
  · intro h
    cases hb : goContains s c with
    | false => rfl
    | true => exact absurd (goContains_iff.mp hb) h

theorem splitChar_ne_nil (sep : Char) : ∀ s : GoString, splitChar sep s ≠ []
  | [] => by simp [splitChar]
  | c :: cs => by
    by_cases h : c = sep
    · simp [splitChar, h]
    · have ih := splitChar_ne_nil sep cs
      simp only [splitChar, if_neg h]
      cases hs : splitChar sep cs with
      | nil => exact absurd hs ih
      | cons f fs => simp

theorem splitChar_not_mem (sep : Char) : ∀ s : GoString, sep ∉ s → splitChar sep s = [s]
  | [], _ => rfl
  | c :: cs, h => by
    have hc : ¬(c = sep) := fun hh => h (hh ▸ List.mem_cons_self c cs)
    have hcs : sep ∉ cs := fun hh => h (List.mem_cons_of_mem _ hh)
    simp only [splitChar, if_neg hc, splitChar_not_mem sep cs hcs]

theorem splitChar_append (sep : Char) :
    ∀ a b : GoString, sep ∉ a → splitChar sep (a ++ sep :: b) = a :: splitChar sep b
  | [], b, _ => by simp [splitChar]
  | c :: cs, b, h => by
    have hc : ¬(c = sep) := fun hh => h (hh ▸ List.mem_cons_self c cs)
    have hcs : sep ∉ cs := fun hh => h (List.mem_cons_of_mem _ hh)
    simp only [List.cons_append, splitChar, if_neg hc, List.append_eq]
    rw [splitChar_append sep cs b hcs]

theorem splitChar_joinChar (sep : Char) :
    ∀ ps : List GoString, ps ≠ [] → (∀ p ∈ ps, sep ∉ p) →
      splitChar sep (joinChar sep ps) = ps
  | [], h, _ => absurd rfl h
  | [x], _, hall => by
    simpa [joinChar] using splitChar_not_mem sep x (hall x (by simp))
  | x :: y :: ys, _, hall => by
    have hx : sep ∉ x := hall x (by simp)
    have hrec := splitChar_joinChar sep (y :: ys) (by simp)
      (fun p hp => hall p (List.mem_cons_of_mem _ hp))
    calc splitChar sep (joinChar sep (x :: y :: ys))
        = splitChar sep (x ++ sep :: joinChar sep (y :: ys)) := rfl
      _ = x :: splitChar sep (joinChar sep (y :: ys)) := splitChar_append sep x _ hx
      _ = x :: y :: ys := by rw [hrec]

/-! ### Properties of the decimal codec -/

theorem digitVal_digitChar {n : Nat} (h : n < 10) : digitVal (Nat.digitChar n) = some n := by
  interval_cases n <;> decide

theorem digitChar_isDigit {n : Nat} (h : n < 10) :
    '0' ≤ Nat.digitChar n ∧ Nat.digitChar n ≤ '9' := by
  interval_cases n <;> decide

theorem natCharsFuel_digits :
    ∀ fuel n, ∀ c ∈ natCharsFuel fuel n, '0' ≤ c ∧ c ≤ '9'
  | 0, n, c, h => absurd h (by simp [natCharsFuel])
  | fuel + 1, n, c, h => by
    by_cases h10 : n < 10
    · simp only [natCharsFuel, if_pos h10, List.mem_singleton] at h
      exact h ▸ digitChar_isDigit h10
    · simp only [natCharsFuel, if_neg h10, List.mem_append, List.mem_singleton] at h
      rcases h with h | h
      · exact natCharsFuel_digits fuel _ c h
      · exact h ▸ digitChar_isDigit (Nat.mod_lt _ (by norm_num))

theorem natCharsFuel_ne_nil (fuel n : Nat) : natCharsFuel (fuel + 1) n ≠ [] := by
  by_cases h10 : n < 10 <;> simp [natCharsFuel, h10]

theorem parseNatAux_append :
    ∀ (a b : GoString) (acc : Nat),
      parseNatAux acc (a ++ b) =
        match parseNatAux acc a with
        | none => none
        | some m => parseNatAux m b
  | [], b, acc => rfl
  | c :: cs, b, acc => by
    cases h : digitVal c with
    | none => simp [parseNatAux, h]
    | some d => simp [parseNatAux, h, parseNatAux_append cs b]

theorem parseNatAux_natCharsFuel :
    ∀ (fuel n acc : Nat), n < 10 ^ fuel →
      parseNatAux acc (natCharsFuel fuel n) =
        some (acc * 10 ^ (natCharsFuel fuel n).length + n)
  | 0, n, acc, h => by
    have hn : n = 0 := by simpa using h
    subst hn
    simp [natCharsFuel, parseNatAux]
  | fuel + 1, n, acc, h => by
    by_cases h10 : n < 10
    · simp only [natCharsFuel, if_pos h10, parseNatAux, digitVal_digitChar h10,
        List.length_singleton]
      norm_num
    · have hdiv : n / 10 < 10 ^ fuel := by
        rw [Nat.div_lt_iff_lt_mul (by norm_num)]
        calc n < 10 ^ (fuel + 1) := h
          _ = 10 ^ fuel * 10 := by ring
      have hmod : n % 10 < 10 := Nat.mod_lt _ (by norm_num)
      simp only [natCharsFuel, if_neg h10, parseNatAux_append,
        parseNatAux_natCharsFuel fuel (n / 10) acc hdiv, parseNatAux,
        digitVal_digitChar hmod, List.length_append, List.length_singleton]
      congr 1
      have hdm : n / 10 * 10 + n % 10 = n := by omega
      rw [pow_succ]
      nlinarith [hdm]

theorem parseNatAux_itoaNat (n : Nat) :
    parseNatAux 0 (natCharsFuel (n + 1) n) = some n := by
  have hlt : n < 10 ^ (n + 1) := by
    calc n < 2 ^ n := Nat.lt_two_pow n
      _ ≤ 10 ^ n := Nat.pow_le_pow_left (by norm_num) n
      _ ≤ 10 ^ (n + 1) := Nat.pow_le_pow_right (by norm_num) (Nat.le_succ n)
  simpa using parseNatAux_natCharsFuel (n + 1) n 0 hlt

theorem itoa_of_nonneg {i : Int} (h : 0 ≤ i) :
    itoa i = natCharsFuel (i.toNat + 1) i.toNat := by
  simp [itoa, not_lt.mpr h]

theorem itoa_of_neg {i : Int} (h : i < 0) :
    itoa i = '-' :: natCharsFuel (i.natAbs + 1) i.natAbs := by
  simp [itoa, h]

theorem itoa_mem {i : Int} : ∀ c ∈ itoa i, c = '-' ∨ ('0' ≤ c ∧ c ≤ '9') := by
  intro c hc
  by_cases h : i < 0
  · rw [itoa_of_neg h] at hc
    rcases List.mem_cons.mp hc with h1 | h1
    · exact Or.inl h1
    · exact Or.inr (natCharsFuel_digits _ _ c h1)
  · rw [itoa_of_nonneg (not_lt.mp h)] at hc
    exact Or.inr (natCharsFuel_digits _ _ c hc)

theorem not_mem_itoa {i : Int} {c : Char} (h1 : c ≠ '-')
    (h2 : ¬('0' ≤ c ∧ c ≤ '9')) : c ∉ itoa i := by
  intro hm
  rcases itoa_mem c hm with h | h
  · exact h1 h
  · exact h2 h

theorem colon_not_mem_itoa (i : Int) : ':' ∉ itoa i :=
  not_mem_itoa (by decide) (by decide)

theorem comma_not_mem_itoa (i : Int) : ',' ∉ itoa i :=
  not_mem_itoa (by decide) (by decide)

theorem parseInt64_itoa_eq (i : Int) :
    parseInt64 (itoa i) = if i < int64Min ∨ int64Max < i then none else some i := by
  by_cases hneg : i < 0
  · rw [itoa_of_neg hneg]
    cases hL : natCharsFuel (i.natAbs + 1) i.natAbs with
    | nil => exact absurd hL (natCharsFuel_ne_nil _ _)
    | cons d ds =>
      have hparse : parseNatAux 0 (d :: ds) = some i.natAbs := by
        rw [← hL]; exact parseNatAux_itoaNat i.natAbs
      have habs : -((i.natAbs : Nat) : Int) = i := by omega
      simp [parseInt64, hparse, habs, abs_of_neg hneg]
  · rw [itoa_of_nonneg (not_lt.mp hneg)]
    cases hL : natCharsFuel (i.toNat + 1) i.toNat with
    | nil => exact absurd hL (natCharsFuel_ne_nil _ _)
    | cons d ds =>
      have hd : '0' ≤ d ∧ d ≤ '9' :=
        natCharsFuel_digits _ _ d (hL ▸ List.mem_cons_self d ds)
      have hd1 : ¬(d = '-') := by rintro rfl; exact absurd hd (by decide)
      have hd2 : ¬(d = '+') := by rintro rfl; exact absurd hd (by decide)
      have hparse : parseNatAux 0 (d :: ds) = some i.toNat := by
        rw [← hL]; exact parseNatAux_itoaNat i.toNat
      have htn : ((i.toNat : Nat) : Int) = i := Int.toNat_of_nonneg (not_lt.mp hneg)
      simp only [parseInt64, if_neg hd1, if_neg hd2, hparse, htn]
      simp

theorem itoa_injective {i j : Int} (h : itoa i = itoa j) : i = j := by
  by_cases hi : i < 0 <;> by_cases hj : j < 0
  · rw [itoa_of_neg hi, itoa_of_neg hj] at h
    injection h with _ htail
    have hp : some i.natAbs = some j.natAbs := by
      rw [← parseNatAux_itoaNat i.natAbs, ← parseNatAux_itoaNat j.natAbs, htail]
    injection hp with hp
    omega
  · rw [itoa_of_neg hi, itoa_of_nonneg (not_lt.mp hj)] at h
    cases hL : natCharsFuel (j.toNat + 1) j.toNat with
    | nil => exact absurd hL (natCharsFuel_ne_nil _ _)
    | cons d ds =>
      rw [hL] at h
      injection h with hhead _
      have hd := natCharsFuel_digits _ _ d (hL ▸ List.mem_cons_self d ds)
      rw [← hhead] at hd
      exact absurd hd (by decide)
  · rw [itoa_of_nonneg (not_lt.mp hi), itoa_of_neg hj] at h
    cases hL : natCharsFuel (i.toNat + 1) i.toNat with
    | nil => exact absurd hL (natCharsFuel_ne_nil _ _)
    | cons d ds =>
      rw [hL] at h
      injection h with hhead _
      have hd := natCharsFuel_digits _ _ d (hL ▸ List.mem_cons_self d ds)
      rw [hhead] at hd
      exact absurd hd (by decide)
  · rw [itoa_of_nonneg (not_lt.mp hi), itoa_of_nonneg (not_lt.mp hj)] at h
    have hp : some i.toNat = some j.toNat := by
      rw [← parseNatAux_itoaNat i.toNat, ← parseNatAux_itoaNat j.toNat, h]
    injection hp with hp
    omega

/-! ### Ledger codec round trip -/

theorem extract_gvs (p : PullRequest) :
    ExtractVersionFromVersionString (GetVersionStringFromPullRequest p) =
      if p.tip.committedDate < int64Min ∨ int64Max < p.tip.committedDate then
        .error (.malformedLedgerEntry (itoa p.tip.committedDate))
      else .ok ⟨itoa p.number, p.tip.committedDate⟩ := by
  unfold ExtractVersionFromVersionString GetVersionStringFromPullRequest
  rw [splitChar_append ':' _ _ (colon_not_mem_itoa p.number),
    splitChar_not_mem ':' _ (colon_not_mem_itoa p.tip.committedDate)]
  by_cases h : p.tip.committedDate < int64Min ∨ int64Max < p.tip.committedDate
  · simp [parseInt64_itoa_eq, h]
  · simp [parseInt64_itoa_eq, h]

theorem decodeEntryList_map_gvs :
    ∀ pulls : List PullRequest,
      (∀ p ∈ pulls, int64Min ≤ p.tip.committedDate ∧ p.tip.committedDate ≤ int64Max) →
      decodeEntryList (pulls.map GetVersionStringFromPullRequest) =
        .ok (pulls.map (fun p => ⟨itoa p.number, p.tip.committedDate⟩))
  | [], _ => rfl
  | p :: rest, h => by
    have hp := h p (List.mem_cons_self p rest)
    have hno : ¬(p.tip.committedDate < int64Min ∨ int64Max < p.tip.committedDate) := by
      rintro (h1 | h2)
      · exact absurd h1 (not_lt.mpr hp.1)
      · exact absurd h2 (not_lt.mpr hp.2)
    simp only [List.map_cons, decodeEntryList, extract_gvs, if_neg hno]
    rw [decodeEntryList_map_gvs rest (fun q hq => h q (List.mem_cons_of_mem _ hq))]

theorem comma_not_mem_gvs (p : PullRequest) :
    ',' ∉ GetVersionStringFromPullRequest p := by
  unfold GetVersionStringFromPullRequest
  intro hm
  rcases List.mem_append.mp hm with h | h
  · exact comma_not_mem_itoa _ h
  · rcases List.mem_cons.mp h with h | h
    · exact absurd h (by decide)
    · exact comma_not_mem_itoa _ h

theorem decodeLedger_generateVersion (pulls : List PullRequest) (hne : pulls ≠ [])
    (h : ∀ p ∈ pulls, int64Min ≤ p.tip.committedDate ∧ p.tip.committedDate ≤ int64Max) :
    decodeLedger (GenerateVersion pulls) =
      .ok (pulls.map (fun p => ⟨itoa p.number, p.tip.committedDate⟩)) := by
  unfold decodeLedger GenerateVersion
  rw [splitChar_joinChar ',' _ (by simpa using hne)
    (fun s hs => by
      obtain ⟨q, hq, hqs⟩ := List.mem_map.mp hs
      exact hqs ▸ comma_not_mem_gvs q)]
  exact decodeEntryList_map_gvs pulls h

/-! ### Behaviour of the fold classifier -/

theorem aboveTheFold_no_colon {v s : GoString} (h : goContains s ':' = false) :
    AboveTheFold v s = .ok true := by
  simp [AboveTheFold, h]

theorem aboveTheFoldLoop_ok (pr : AlreadySeenVersion) :
    ∀ (pairs : List GoString) (L : List AlreadySeenVersion) (a f : Bool),
      decodeEntryList pairs = .ok L →
      aboveTheFoldLoop pr pairs a f =
        .ok (a || L.any (fun e => decide (e.pr = pr.pr) &&
               decide (e.committedDate < pr.committedDate)),
             f || L.any (fun e => decide (e.pr = pr.pr)))
  | [], L, a, f, h => by
    simp only [decodeEntryList] at h
    injection h with h
    subst h
    simp [aboveTheFoldLoop]
  | e :: es, L, a, f, h => by
    simp only [decodeEntryList] at h
    cases hx : ExtractVersionFromVersionString e with
    | error err => rw [hx] at h; cases h
    | ok v =>
      rw [hx] at h
      cases hrest : decodeEntryList es with
      | error err => rw [hrest] at h; cases h
      | ok vs =>
        rw [hrest] at h
        injection h with h
        subst h
        simp only [aboveTheFoldLoop, hx]
        by_cases hpr : v.pr = pr.pr
        · rw [if_pos hpr, aboveTheFoldLoop_ok pr es vs _ _ hrest]
          simp [hpr, Bool.or_assoc]
        · rw [if_neg hpr, aboveTheFoldLoop_ok pr es vs a f hrest]
          simp [hpr]

theorem aboveTheFoldLoop_error (pr : AlreadySeenVersion) :
    ∀ (pairs : List GoString) (a f : Bool) (err : CheckErr),
      decodeEntryList pairs = .error err →
      aboveTheFoldLoop pr pairs a f = .error err
  | [], a, f, err, h => by simp [decodeEntryList] at h
  | e :: es, a, f, err, h => by
    simp only [decodeEntryList] at h
    cases hx : ExtractVersionFromVersionString e with
    | error err2 =>
      rw [hx] at h
      injection h with h
      subst h
      simp [aboveTheFoldLoop, hx]
    | ok v =>
      rw [hx] at h
      cases hrest : decodeEntryList es with
      | error err2 =>
        rw [hrest] at h
        injection h with h
        subst h
        simp only [aboveTheFoldLoop, hx]
        by_cases hpr : v.pr = pr.pr
        · rw [if_pos hpr]; exact aboveTheFoldLoop_error pr es _ _ _ hrest
        · rw [if_neg hpr]; exact aboveTheFoldLoop_error pr es _ _ _ hrest
      | ok vs => rw [hrest] at h; cases h

theorem aboveTheFold_decoded {pv s : GoString} {pr : AlreadySeenVersion}
    {L : List AlreadySeenVersion}
    (hc : goContains s ':' = true)
    (hx : ExtractVersionFromVersionString pv = .ok pr)
    (hL : decodeLedger s = .ok L) :
    AboveTheFold pv s =
      .ok (if L.any (fun e => decide (e.pr = pr.pr)) then
             L.any (fun e => decide (e.pr = pr.pr) &&
               decide (e.committedDate < pr.committedDate))
           else true) := by
  have hcf : ¬(goContains s ':' = false) := by simp [hc]
  unfold AboveTheFold
  rw [if_neg hcf]
  simp only [hx, aboveTheFoldLoop_ok pr (splitChar ',' s) L false false hL]
  simp

theorem aboveTheFold_err_ledger {pv s : GoString} {pr : AlreadySeenVersion} {err : CheckErr}
    (hc : goContains s ':' = true)
    (hx : ExtractVersionFromVersionString pv = .ok pr)
    (hL : decodeLedger s = .error err) :
    AboveTheFold pv s = .error err := by
  have hcf : ¬(goContains s ':' = false) := by simp [hc]
  unfold AboveTheFold
  rw [if_neg hcf]
  simp only [hx, aboveTheFoldLoop_error pr (splitChar ',' s) false false err hL]

theorem aboveTheFold_err_pv {pv s : GoString} {err : CheckErr}
    (hc : goContains s ':' = true)
    (hx : ExtractVersionFromVersionString pv = .error err) :
    AboveTheFold pv s = .error err := by
  have hcf : ¬(goContains s ':' = false) := by simp [hc]
  unfold AboveTheFold
  rw [if_neg hcf]
  simp only [hx]

/-! ### Behaviour of the snapshot loop -/

theorem classifyPull_core (fp : GoString → GoString → Except GoString Bool) (mgr : Github)
    (seen : GoString) (p : PullRequest) :
    classifyPull fp mgr coreSource true seen p = foldStep seen p := by
  simp [classifyPull, coreSource, pathGate, ignoreGate]

theorem checkLoop_core (fp : GoString → GoString → Except GoString Bool) (mgr : Github)
    (seen : GoString) :
    ∀ pulls : List PullRequest,
      (∀ p ∈ pulls, (AboveTheFold (GetVersionStringFromPullRequest p) seen).isOk = true) →
      checkLoop fp mgr coreSource true seen pulls =
        .ok (pulls.filter
               (fun p => AboveTheFold (GetVersionStringFromPullRequest p) seen = .ok true),
             pulls.filter
               (fun p => AboveTheFold (GetVersionStringFromPullRequest p) seen = .ok false))
  | [], _ => by simp [checkLoop]
  | p :: rest, h => by
    have hp := h p (List.mem_cons_self p rest)
    cases hA : AboveTheFold (GetVersionStringFromPullRequest p) seen with
    | error e => rw [hA] at hp; simp [Except.isOk, Except.toBool] at hp
    | ok b =>
      have hrec := checkLoop_core fp mgr seen rest
        (fun q hq => h q (List.mem_cons_of_mem _ hq))
      simp only [checkLoop, classifyPull_core, foldStep, hA, hrec]
      cases b <;> simp [List.filter_cons, hA]

theorem checkLoop_core_error (fp : GoString → GoString → Except GoString Bool) (mgr : Github)
    (seen : GoString) (p : PullRequest) (rest : List PullRequest) (e : CheckErr)
    (h : AboveTheFold (GetVersionStringFromPullRequest p) seen = .error e) :
    checkLoop fp mgr coreSource true seen (p :: rest) = .error e := by
  simp [checkLoop, classifyPull_core, foldStep, h]

theorem checkLoop_newP_classified (fp : GoString → GoString → Except GoString Bool)
    (mgr : Github) (src : Source) (dis : Bool) (seen : GoString) (pulls : List PullRequest) :
    ∀ newP hideP : List PullRequest,
      checkLoop fp mgr src dis seen pulls = .ok (newP, hideP) →
      ∀ q ∈ newP, classifyPull fp mgr src dis seen q = .ok (some true) := by
  induction pulls with
  | nil =>
    intro newP hideP h q hq
    simp only [checkLoop] at h
    injection h with h
    cases h
    exact absurd hq (List.not_mem_nil q)
  | cons p rest ih =>
    intro newP hideP h q hq
    simp only [checkLoop] at h
    cases hc : classifyPull fp mgr src dis seen p with
    | error e => rw [hc] at h; cases h
    | ok ob =>
      rw [hc] at h
      cases ob with
      | none => exact ih newP hideP h q hq
      | some b =>
        cases hrest : checkLoop fp mgr src dis seen rest with
        | error e => rw [hrest] at h; cases h
        | ok nh =>
          obtain ⟨nP, hP⟩ := nh
          rw [hrest] at h
          cases b with
          | true =>
            simp at h
            obtain ⟨h1, h2⟩ := h
            subst h1
            rcases List.mem_cons.mp hq with hq1 | hq1
            · exact hq1 ▸ hc
            · exact ih nP hP hrest q hq1
          | false =>
            simp at h
            obtain ⟨h1, h2⟩ := h
            subst h1
            exact ih nP hP hrest q hq

theorem classifyPull_not_true {fp : GoString → GoString → Except GoString Bool} {mgr : Github}
    {src : Source} {dis : Bool} {seen : GoString} {q : PullRequest}
    (h : AboveTheFold (GetVersionStringFromPullRequest q) seen = .ok false) :
    classifyPull fp mgr src dis seen q ≠ .ok (some true) := by
  intro hcon
  have hfs : foldStep seen q = .ok (some false) := by simp [foldStep, h]
  unfold classifyPull pathGate ignoreGate at hcon
  simp only [hfs] at hcon
  repeat' split at hcon
  all_goals cases hcon

/-! ### Sorting and policy lemmas -/

theorem sortResponse_sorted (r : CheckResponse) : List.Pairwise versionLe (sortResponse r) :=
  List.sorted_insertionSort versionLe r

theorem sortResponse_perm (r : CheckResponse) : (sortResponse r).Perm r :=
  List.perm_insertionSort versionLe r

theorem sortPulls_perm (l : List PullRequest) : (sortPulls l).Perm l :=
  List.perm_insertionSort pullLe l

theorem getLastD_mem_of_ne_nil :
    ∀ (l : List Version) (d : Version), l ≠ [] → l.getLastD d ∈ l
  | [], _, h => absurd rfl h
  | x :: xs, d, _ => by
    rw [List.getLastD_cons]
    by_cases hxs : xs = []
    · subst hxs; simp
    · exact List.mem_cons_of_mem x (getLastD_mem_of_ne_nil xs x hxs)

theorem sorted_getLastD_eq :
    ∀ (l : List Version) (x d : Version),
      List.Pairwise versionLe l → x ∈ l →
      (∀ w ∈ l, w ≠ x → w.committedDate < x.committedDate) →
      l.getLastD d = x
  | [], x, _, _, hx, _ => absurd hx (List.not_mem_nil x)
  | [y], x, d, _, hx, _ => by
    rw [List.mem_singleton] at hx
    subst hx
    simp
  | y :: z :: ys, x, d, hp, hx, hmax => by
    have hpair := List.pairwise_cons.mp hp
    have hx' : x ∈ z :: ys := by
      rcases List.mem_cons.mp hx with h1 | h1
      · by_contra hxt
        have hz : z ≠ x := fun hz => hxt (hz ▸ List.mem_cons_self z ys)
        have hlt : z.committedDate < x.committedDate :=
          hmax z (List.mem_cons_of_mem _ (List.mem_cons_self z ys)) hz
        have hle : versionLe y z := hpair.1 z (List.mem_cons_self z ys)
        subst h1
        exact absurd hle (not_le.mpr hlt)
      · exact h1
    have hrec := sorted_getLastD_eq (z :: ys) x y hpair.2 hx'
      (fun w hw hne => hmax w (List.mem_cons_of_mem _ hw) hne)
    rw [List.getLastD_cons]
    exact hrec

theorem assemblePolicy_eq (prev : Version) (resp : CheckResponse) :
    assemblePolicy prev resp =
      if resp = [] then (if prev.alreadySeen = [] then [] else [prev])
      else (if prev.alreadySeen = [] then [resp.getLastD prev] else resp) := by
  unfold assemblePolicy
  by_cases h1 : resp = [] <;> by_cases h2 : prev.alreadySeen = [] <;> simp [h1, h2]

theorem Check_ok_shape (fp : GoString → GoString → Except GoString Bool)
    (req : CheckRequest) (mgr : Github) (resp : CheckResponse)
    (h : Check fp req mgr = .ok resp) :
    ∃ nP hP, resp = assembleResponse req.version nP hP := by
  unfold Check at h
  split at h
  · cases h
  · split at h
    · cases h
    · split at h
      · cases h
      · injection h with h
        exact ⟨_, _, h.symm⟩

theorem Check_core (fp : GoString → GoString → Except GoString Bool) (req : CheckRequest)
    (mgr : Github) (pulls : List PullRequest)
    (hsrc : req.source = coreSource)
    (hlist : mgr.listOpenPullRequests = .ok pulls) :
    Check fp req mgr =
      match checkLoop fp mgr coreSource true req.version.alreadySeen pulls with
      | .error e => .error e
      | .ok (nP, hP) => .ok (assembleResponse req.version nP hP) := by
  unfold Check
  rw [hlist, hsrc]
  rfl

theorem extract_gvs_ok {p : PullRequest}
    (hrange : int64Min ≤ p.tip.committedDate ∧ p.tip.committedDate ≤ int64Max) :
    ExtractVersionFromVersionString (GetVersionStringFromPullRequest p) =
      .ok ⟨itoa p.number, p.tip.committedDate⟩ := by
  rw [extract_gvs, if_neg]
  rintro (h1 | h2)
  · exact absurd h1 (not_lt.mpr hrange.1)
  · exact absurd h2 (not_lt.mpr hrange.2)

theorem decodeEntryList_of_all_ok :
    ∀ es : List GoString, (∀ e ∈ es, entryOk e = true) →
      ∃ M, decodeEntryList es = .ok M
  | [], _ => ⟨[], rfl⟩
  | e :: es, h => by
    have he := h e (List.mem_cons_self e es)
    unfold entryOk at he
    cases hx : ExtractVersionFromVersionString e with
    | error err => rw [hx] at he; simp [Except.isOk, Except.toBool] at he
    | ok v =>
      obtain ⟨M, hM⟩ :=
        decodeEntryList_of_all_ok es (fun x hx2 => h x (List.mem_cons_of_mem _ hx2))
      exact ⟨v :: M, by simp [decodeEntryList, hx, hM]⟩

theorem ledgerOk_above_isOk {s : GoString} {p : PullRequest}
    (hok : ledgerOk s = true)
    (hrange : int64Min ≤ p.tip.committedDate ∧ p.tip.committedDate ≤ int64Max) :
    (AboveTheFold (GetVersionStringFromPullRequest p) s).isOk = true := by
  unfold ledgerOk at hok
  cases hc : goContains s ':' with
  | false => rw [aboveTheFold_no_colon hc]; rfl
  | true =>
    rw [hc] at hok
    simp only [Bool.not_true, Bool.false_or, List.all_eq_true] at hok
    obtain ⟨M, hM⟩ := decodeEntryList_of_all_ok _ hok
    rw [aboveTheFold_decoded hc (extract_gvs_ok hrange) hM]
    rfl

theorem count_entry_one :
    ∀ (pulls : List PullRequest) (p : PullRequest), p ∈ pulls →
      List.Pairwise (fun a b : PullRequest => a.number ≠ b.number) pulls →
      ((pulls.map
          (fun q => (⟨itoa q.number, q.tip.committedDate⟩ : AlreadySeenVersion))).filter
        (fun e => e.pr = itoa p.number)).length = 1
  | [], p, hp, _ => absurd hp (List.not_mem_nil p)
  | q :: rest, p, hp, hpw => by
    have hpair := List.pairwise_cons.mp hpw
    rcases List.mem_cons.mp hp with h1 | h1
    · subst h1
      simp only [List.map_cons, List.filter_cons]
      rw [if_pos (by simp)]
      have htail :
          ((rest.map
              (fun q => (⟨itoa q.number, q.tip.committedDate⟩ : AlreadySeenVersion))).filter
            (fun e => e.pr = itoa p.number)) = [] := by
        apply List.filter_eq_nil_iff.mpr
        intro e he
        obtain ⟨r, hr, hre⟩ := List.mem_map.mp he
        have hnum : p.number ≠ r.number := hpair.1 r hr
        have : itoa r.number ≠ itoa p.number := fun hh => hnum (itoa_injective hh).symm
        simp [← hre, this]
      rw [htail]
      rfl
    · simp only [List.map_cons, List.filter_cons]
      have hnum : q.number ≠ p.number := hpair.1 p h1
      have hne : itoa q.number ≠ itoa p.number := fun hh => hnum (itoa_injective hh)
      rw [if_neg (by simpa using hne)]
      exact count_entry_one rest p h1 hpair.2

theorem decodeEntryList_malformed :
    ∀ es : List GoString,
      (∀ e ∈ es, 2 ≤ (splitChar ':' e).length) →
      (∃ e ∈ es, parseInt64 ((splitChar ':' e).getD 1 []) = none) →
      ∃ f, decodeEntryList es = .error (.malformedLedgerEntry f)
  | [], _, hbad => by simp at hbad
  | e :: es, hshape, hbad => by
    have he2 := hshape e (List.mem_cons_self e es)
    cases hsp : splitChar ':' e with
    | nil => rw [hsp] at he2; simp at he2
    | cons a rest =>
      cases rest with
      | nil => rw [hsp] at he2; simp at he2
      | cons b rest2 =>
        cases hp : parseInt64 b with
        | none =>
          exact ⟨b, by simp [decodeEntryList, ExtractVersionFromVersionString, hsp, hp]⟩
        | some n =>
          have hbad' : ∃ x ∈ es, parseInt64 ((splitChar ':' x).getD 1 []) = none := by
            rcases hbad with ⟨x, hx, hxp⟩
            rcases List.mem_cons.mp hx with h1 | h1
            · subst h1
              rw [hsp] at hxp
              simp only [List.getD, List.get?_cons_succ, List.get?_cons_zero,
                Option.getD_some] at hxp
              rw [hp] at hxp
              cases hxp
            · exact ⟨x, h1, hxp⟩
          obtain ⟨f, hf⟩ := decodeEntryList_malformed es
            (fun x hx => hshape x (List.mem_cons_of_mem _ hx)) hbad'
          exact ⟨f, by
            simp [decodeEntryList, ExtractVersionFromVersionString, hsp, hp, hf]⟩

/-- Claim C1: whenever the previous ledger string contains a `:`, every
comma-separated entry carries a timestamp field (at least two colon-fields),
and some entry's timestamp field is not a valid integer, `Check` over a
non-empty snapshot (the core configuration: filters disabled, so every record
reaches classification) aborts with the `MalformedLedgerEntry` failure — the
Go code's `panic(err)` on the failed `ParseInt`, modelled as the
`malformedLedgerEntry` error — returning no versions at all. -/
theorem check_malformed_ledger_entry_fails
    (fp : GoString → GoString → Except GoString Bool) (req : CheckRequest) (mgr : Github)
    (p : PullRequest) (rest : List PullRequest)
    (hsrc : req.source = coreSource)
    (hlist : mgr.listOpenPullRequests = .ok (p :: rest))
    (hc : goContains req.version.alreadySeen ':' = true)
    (hshape : ∀ e ∈ splitChar ',' req.version.alreadySeen, 2 ≤ (splitChar ':' e).length)
    (hbad : ∃ e ∈ splitChar ',' req.version.alreadySeen,
      parseInt64 ((splitChar ':' e).getD 1 []) = none) :
    ∃ f, Check fp req mgr = .error (.malformedLedgerEntry f) := by
  obtain ⟨f, hf⟩ :=
    decodeEntryList_malformed (splitChar ',' req.version.alreadySeen) hshape hbad
  have hA : ∃ f2, AboveTheFold (GetVersionStringFromPullRequest p) req.version.alreadySeen =
      .error (.malformedLedgerEntry f2) := by
    cases hx : ExtractVersionFromVersionString (GetVersionStringFromPullRequest p) with
    | error err =>
      have hgv := extract_gvs p
      rw [hx] at hgv
      by_cases hr : p.tip.committedDate < int64Min ∨ int64Max < p.tip.committedDate
      · rw [if_pos hr] at hgv
        injection hgv with hgv
        exact ⟨itoa p.tip.committedDate, by rw [aboveTheFold_err_pv hc hx, hgv]⟩
      · rw [if_neg hr] at hgv
        cases hgv
    | ok pr => exact ⟨f, by rw [aboveTheFold_err_ledger hc hx hf]⟩
  obtain ⟨f2, hA2⟩ := hA
  refine ⟨f2, ?_⟩
  rw [Check_core fp req mgr (p :: rest) hsrc hlist,
    checkLoop_core_error fp mgr _ p rest _ hA2]

/-- Claim C6: a previous ledger with no `:` anywhere (empty or arbitrary
colon-free garbage) makes `AboveTheFold` return `true` for every current
entry; under the core configuration `Check` then classifies every snapshot
record as new and succeeds rather than failing. -/
theorem aboveTheFold_no_colon_all_new
    (fp : GoString → GoString → Except GoString Bool) (req : CheckRequest) (mgr : Github)
    (pulls : List PullRequest)
    (hsrc : req.source = coreSource)
    (hlist : mgr.listOpenPullRequests = .ok pulls)
    (hnc : goContains req.version.alreadySeen ':' = false) :
    (∀ v : GoString, AboveTheFold v req.version.alreadySeen = .ok true) ∧
    checkLoop fp mgr coreSource true req.version.alreadySeen pulls = .ok (pulls, []) ∧
    ∃ resp, Check fp req mgr = .ok resp := by
  have hall : ∀ v : GoString, AboveTheFold v req.version.alreadySeen = .ok true :=
    fun _ => aboveTheFold_no_colon hnc
  have hloop : checkLoop fp mgr coreSource true req.version.alreadySeen pulls =
      .ok (pulls, []) := by
    rw [checkLoop_core fp mgr req.version.alreadySeen pulls
      (fun q _ => by rw [hall]; rfl)]
    have h1 : pulls.filter
        (fun q => AboveTheFold (GetVersionStringFromPullRequest q) req.version.alreadySeen =
          .ok true) = pulls :=
      List.filter_eq_self.mpr (fun q _ => by simp [hall])
    have h2 : pulls.filter
        (fun q => AboveTheFold (GetVersionStringFromPullRequest q) req.version.alreadySeen =
          .ok false) = [] :=
      List.filter_eq_nil_iff.mpr (fun q _ => by simp [hall])
    rw [h1, h2]
  refine ⟨hall, hloop, assembleResponse req.version pulls [], ?_⟩
  rw [Check_core fp req mgr pulls hsrc hlist, hloop]

/-- Claim C9: inside `AboveTheFold`, a ledger that does contain a `:` but has
a comma-separated entry with no `:` in it (here `"1:5,garbage"`) drives
`ExtractVersionFromVersionString` into its index-out-of-range branch
(`pairs[1]` on a one-element split), so decoding is partial; with at least
two colon-fields per entry that branch is unreachable. -/
theorem extract_entry_without_colon_panics :
    ExtractVersionFromVersionString (gs "garbage") = .error .indexOutOfRange ∧
    AboveTheFold (gs "1:5") (gs "1:5,garbage") = .error .indexOutOfRange ∧
    (∀ e : GoString, 2 ≤ (splitChar ':' e).length →
      ExtractVersionFromVersionString e ≠ .error .indexOutOfRange) := by
  refine ⟨by decide, by decide, ?_⟩
  intro e h2 hcon
  unfold ExtractVersionFromVersionString at hcon
  cases hsp : splitChar ':' e with
  | nil => rw [hsp] at h2; simp at h2
  | cons a rest =>
    cases rest with
    | nil => rw [hsp] at h2; simp at h2
    | cons b rest2 =>
      simp only [hsp] at hcon
      cases hp : parseInt64 b with
      | none => simp only [hp] at hcon; cases hcon
      | some n => simp only [hp] at hcon; cases hcon

theorem aboveTheFold_below {s : GoString} {L : List AlreadySeenVersion} {p : PullRequest}
    (hcolon : goContains s ':' = true)
    (hdec : decodeLedger s = .ok L)
    (hrange : int64Min ≤ p.tip.committedDate ∧ p.tip.committedDate ≤ int64Max)
    (hmatch : ∃ e ∈ L, e.pr = itoa p.number)
    (hnoadv : ∀ e ∈ L, e.pr = itoa p.number → p.tip.committedDate ≤ e.committedDate) :
    AboveTheFold (GetVersionStringFromPullRequest p) s = .ok false := by
  rw [aboveTheFold_decoded hcolon (extract_gvs_ok hrange) hdec]
  have hfound : L.any (fun e => decide (e.pr = itoa p.number)) = true := by
    obtain ⟨e, he, hepr⟩ := hmatch
    exact List.any_eq_true.mpr ⟨e, he, by simp [hepr]⟩
  rw [if_pos hfound]
  congr 1
  apply List.any_eq_false.mpr
  intro e he
  simp only [Bool.and_eq_true, decide_eq_true_eq, not_and]
  intro hepr
  exact not_lt.mpr (hnoadv e he hepr)

/-- Claim C4: with a non-empty previous ledger (containing a `:` and decoding
to entries `L`), if every snapshot record has a matching ledger entry and no
record's tip timestamp strictly exceeds any matching entry's timestamp, then
`Check` under the core configuration returns exactly the one-element list
holding the previous `Version` unchanged. -/
theorem check_steady_state_reemits_prev
    (fp : GoString → GoString → Except GoString Bool) (req : CheckRequest) (mgr : Github)
    (pulls : List PullRequest) (L : List AlreadySeenVersion)
    (hsrc : req.source = coreSource)
    (hlist : mgr.listOpenPullRequests = .ok pulls)
    (hne : req.version.alreadySeen ≠ [])
    (hcolon : goContains req.version.alreadySeen ':' = true)
    (hdec : decodeLedger req.version.alreadySeen = .ok L)
    (hrange : ∀ p ∈ pulls, int64Min ≤ p.tip.committedDate ∧ p.tip.committedDate ≤ int64Max)
    (hmatch : ∀ p ∈ pulls, ∃ e ∈ L, e.pr = itoa p.number)
    (hnoadv : ∀ p ∈ pulls, ∀ e ∈ L, e.pr = itoa p.number →
      p.tip.committedDate ≤ e.committedDate) :
    Check fp req mgr = .ok [req.version] := by
  have hfold : ∀ p ∈ pulls,
      AboveTheFold (GetVersionStringFromPullRequest p) req.version.alreadySeen = .ok false :=
    fun p hp =>
      aboveTheFold_below hcolon hdec (hrange p hp) (hmatch p hp) (hnoadv p hp)
  have hloop : checkLoop fp mgr coreSource true req.version.alreadySeen pulls =
      .ok ([], pulls) := by
    rw [checkLoop_core fp mgr req.version.alreadySeen pulls
      (fun p hp => by rw [hfold p hp]; rfl)]
    have h1 : pulls.filter
        (fun q => AboveTheFold (GetVersionStringFromPullRequest q) req.version.alreadySeen =
          .ok true) = [] :=
      List.filter_eq_nil_iff.mpr (fun q hq => by simp [hfold q hq])
    have h2 : pulls.filter
        (fun q => AboveTheFold (GetVersionStringFromPullRequest q) req.version.alreadySeen =
          .ok false) = pulls :=
      List.filter_eq_self.mpr (fun q hq => by simp [hfold q hq])
    rw [h1, h2]
  rw [Check_core fp req mgr pulls hsrc hlist, hloop]
  simp only [assembleResponse, assemblePolicy_eq]
  simp [sortResponse, List.insertionSort, hne]

/-- Claim C3: with an empty previous ledger and a non-empty snapshot whose
tip timestamps are pairwise distinct, `Check` under the core configuration
returns exactly one `Version` — the one built from the record with the
maximum tip timestamp (carrying the ledger rebuilt from the whole snapshot). -/
theorem check_bootstrap_collapse
    (fp : GoString → GoString → Except GoString Bool) (req : CheckRequest) (mgr : Github)
    (pulls : List PullRequest) (p : PullRequest)
    (hsrc : req.source = coreSource)
    (hlist : mgr.listOpenPullRequests = .ok pulls)
    (hempty : req.version.alreadySeen = [])
    (hp : p ∈ pulls)
    (hmax : ∀ q ∈ pulls, q ≠ p → q.tip.committedDate < p.tip.committedDate) :
    Check fp req mgr = .ok [NewVersion p (GenerateVersion (sortPulls pulls))] := by
  have hnc : goContains req.version.alreadySeen ':' = false := by rw [hempty]; rfl
  have hfold : ∀ q : PullRequest,
      AboveTheFold (GetVersionStringFromPullRequest q) req.version.alreadySeen = .ok true :=
    fun _ => aboveTheFold_no_colon hnc
  have hloop : checkLoop fp mgr coreSource true req.version.alreadySeen pulls =
      .ok (pulls, []) := by
    rw [checkLoop_core fp mgr req.version.alreadySeen pulls (fun q _ => by rw [hfold]; rfl)]
    have h1 : pulls.filter
        (fun q => AboveTheFold (GetVersionStringFromPullRequest q) req.version.alreadySeen =
          .ok true) = pulls :=
      List.filter_eq_self.mpr (fun q _ => by simp [hfold])
    have h2 : pulls.filter
        (fun q => AboveTheFold (GetVersionStringFromPullRequest q) req.version.alreadySeen =
          .ok false) = [] :=
      List.filter_eq_nil_iff.mpr (fun q _ => by simp [hfold])
    rw [h1, h2]
  rw [Check_core fp req mgr pulls hsrc hlist, hloop]
  simp only [assembleResponse, assemblePolicy_eq, List.append_nil]
  have hne0 : sortResponse
      (pulls.map (fun q => NewVersion q (GenerateVersion (sortPulls pulls)))) ≠ [] := by
    intro h0
    have hl := congrArg List.length h0
    rw [(sortResponse_perm _).length_eq, List.length_map] at hl
    simp only [List.length_nil] at hl
    rw [List.length_eq_zero] at hl
    subst hl
    exact absurd hp (List.not_mem_nil p)
  rw [if_neg hne0, if_pos hempty]
  congr 1
  congr 1
  apply sorted_getLastD_eq _ _ _ (sortResponse_sorted _)
  · exact (sortResponse_perm _).mem_iff.mpr (List.mem_map_of_mem _ hp)
  · intro w hw hne
    obtain ⟨q, hq, hqw⟩ := List.mem_map.mp ((sortResponse_perm _).mem_iff.mp hw)
    have hqp : q ≠ p := fun hqp => hne (by rw [← hqw, hqp])
    have hlt := hmax q hq hqp
    rw [← hqw]
    simpa [NewVersion] using hlt

/-- Claim C7: for every successful invocation, the returned list is sorted
ascending by committed timestamp: any `Version` before another has a
committed timestamp less than or equal to it. -/
theorem check_response_sorted
    (fp : GoString → GoString → Except GoString Bool) (req : CheckRequest) (mgr : Github)
    (resp : CheckResponse) (h : Check fp req mgr = .ok resp) :
    List.Pairwise (fun a b : Version => a.committedDate ≤ b.committedDate) resp := by
  obtain ⟨nP, hP, hresp⟩ := Check_ok_shape fp req mgr resp h
  subst hresp
  simp only [assembleResponse, assemblePolicy_eq]
  by_cases h1 : sortResponse
      (nP.map (fun q => NewVersion q (GenerateVersion (sortPulls (nP ++ hP))))) = []
  · rw [if_pos h1]
    by_cases h2 : req.version.alreadySeen = [] <;> simp [h2]
  · rw [if_neg h1]
    by_cases h2 : req.version.alreadySeen = []
    · simp [h2]
    · simp only [if_neg h2]
      exact sortResponse_sorted _

/-- Claim C8: `Check` is a pure function of the previous `Version` and the
record snapshot: two managers that return the same snapshot and the same
per-record file lists produce identical responses, byte-for-byte including
every ledger string (there is no other state `Check` reads). -/
theorem check_pure_function
    (fp : GoString → GoString → Except GoString Bool) (req : CheckRequest)
    (m1 m2 : Github)
    (hl : m1.listOpenPullRequests = m2.listOpenPullRequests)
    (hf : m1.listModifiedFiles = m2.listModifiedFiles) :
    Check fp req m1 = Check fp req m2 := by
  obtain ⟨l1, f1⟩ := m1
  obtain ⟨l2, f2⟩ := m2
  have hl' : l1 = l2 := hl
  have hf' : f1 = f2 := hf
  subst hl'
  subst hf'
  rfl

/-- Claim C10: all `Version`s in any one returned list carry the same
`AlreadySeen` string (the ledger is computed once, before any output
`Version` is constructed); proved for every successful invocation, which
includes in particular the ones returning newly-advanced `Version`s. -/
theorem check_versions_share_ledger
    (fp : GoString → GoString → Except GoString Bool) (req : CheckRequest) (mgr : Github)
    (resp : CheckResponse) (h : Check fp req mgr = .ok resp) :
    ∀ v ∈ resp, ∀ w ∈ resp, v.alreadySeen = w.alreadySeen := by
  obtain ⟨nP, hP, hresp⟩ := Check_ok_shape fp req mgr resp h
  subst hresp
  intro v hv w hw
  simp only [assembleResponse, assemblePolicy_eq] at hv hw
  have hmem : ∀ u : Version,
      u ∈ sortResponse (nP.map (fun q => NewVersion q (GenerateVersion (sortPulls (nP ++ hP))))) →
      u.alreadySeen = GenerateVersion (sortPulls (nP ++ hP)) := by
    intro u hu
    obtain ⟨q, _, hqu⟩ := List.mem_map.mp ((sortResponse_perm _).mem_iff.mp hu)
    rw [← hqu]
    rfl
  by_cases h1 : sortResponse
      (nP.map (fun q => NewVersion q (GenerateVersion (sortPulls (nP ++ hP))))) = []
  · rw [if_pos h1] at hv hw
    by_cases h2 : req.version.alreadySeen = []
    · simp [h2] at hv
    · simp [h2] at hv hw
      rw [hv, hw]
  · rw [if_neg h1] at hv hw
    by_cases h2 : req.version.alreadySeen = []
    · simp [h2] at hv hw
      rw [hv, hw]
    · simp only [if_neg h2] at hv hw
      rw [hmem v hv, hmem w hw]

theorem newT_append_newF_perm (seen : GoString) (pulls : List PullRequest)
    (hok : ∀ p ∈ pulls,
      (AboveTheFold (GetVersionStringFromPullRequest p) seen).isOk = true) :
    (pulls.filter (fun p => AboveTheFold (GetVersionStringFromPullRequest p) seen = .ok true) ++
      pulls.filter
        (fun p => AboveTheFold (GetVersionStringFromPullRequest p) seen = .ok false)).Perm
      pulls := by
  have hcongr : pulls.filter
      (fun p => AboveTheFold (GetVersionStringFromPullRequest p) seen = .ok false) =
      pulls.filter (fun p =>
        !(decide (AboveTheFold (GetVersionStringFromPullRequest p) seen = .ok true))) := by
    apply List.filter_congr
    intro p hp
    have hisok := hok p hp
    cases hA : AboveTheFold (GetVersionStringFromPullRequest p) seen with
    | error e => rw [hA] at hisok; simp [Except.isOk, Except.toBool] at hisok
    | ok b => cases b <;> simp
  rw [hcongr]
  exact List.filter_append_perm _ pulls

theorem assembleResponse_mem_seen (prev : Version) (nP hP : List PullRequest)
    (hne : nP ≠ []) :
    ∀ v ∈ assembleResponse prev nP hP,
      v.alreadySeen = GenerateVersion (sortPulls (nP ++ hP)) := by
  intro v hv
  simp only [assembleResponse, assemblePolicy_eq] at hv
  have hrne : sortResponse
      (nP.map (fun q => NewVersion q (GenerateVersion (sortPulls (nP ++ hP))))) ≠ [] := by
    intro h0
    have hl := congrArg List.length h0
    rw [(sortResponse_perm _).length_eq, List.length_map] at hl
    simp only [List.length_nil] at hl
    exact hne (List.length_eq_zero.mp hl)
  rw [if_neg hrne] at hv
  have hmem : ∀ u : Version,
      u ∈ sortResponse (nP.map (fun q => NewVersion q (GenerateVersion (sortPulls (nP ++ hP))))) →
      u.alreadySeen = GenerateVersion (sortPulls (nP ++ hP)) := by
    intro u hu
    obtain ⟨q, _, hqu⟩ := List.mem_map.mp ((sortResponse_perm _).mem_iff.mp hu)
    rw [← hqu]
    rfl
  by_cases h2 : prev.alreadySeen = []
  · rw [if_pos h2, List.mem_singleton] at hv
    rw [hv]
    exact hmem _ (getLastD_mem_of_ne_nil _ prev hrne)
  · simp only [if_neg h2] at hv
    exact hmem v hv

/-- Claim C2 (amended): under the core configuration, for a snapshot with
pairwise-distinct sequence ids, int64-range timestamps and a previous ledger
that decodes (so classification cannot panic), whenever at least one record
is above the fold — i.e. `Check` returns newly-constructed `Version`s, not
the re-emitted previous one — every returned `Version` carries a ledger that
decodes to exactly one entry per snapshot record (holding that record's
current tip timestamp) and zero entries for ids absent from the snapshot. -/
theorem check_new_ledger_complete
    (fp : GoString → GoString → Except GoString Bool) (req : CheckRequest) (mgr : Github)
    (pulls : List PullRequest) (resp : CheckResponse)
    (hsrc : req.source = coreSource)
    (hlist : mgr.listOpenPullRequests = .ok pulls)
    (hdistinct : List.Pairwise (fun a b : PullRequest => a.number ≠ b.number) pulls)
    (hrange : ∀ p ∈ pulls, int64Min ≤ p.tip.committedDate ∧ p.tip.committedDate ≤ int64Max)
    (hledger : ledgerOk req.version.alreadySeen = true)
    (hsome : ∃ p ∈ pulls,
      AboveTheFold (GetVersionStringFromPullRequest p) req.version.alreadySeen = .ok true)
    (hresp : Check fp req mgr = .ok resp) :
    ∀ v ∈ resp, ∃ Ldec, decodeLedger v.alreadySeen = .ok Ldec ∧
      (∀ p ∈ pulls, (Ldec.filter (fun e => e.pr = itoa p.number)).length = 1) ∧
      (∀ p ∈ pulls, (⟨itoa p.number, p.tip.committedDate⟩ : AlreadySeenVersion) ∈ Ldec) ∧
      (∀ idStr : GoString, (∀ p ∈ pulls, itoa p.number ≠ idStr) →
        (Ldec.filter (fun e => e.pr = idStr)).length = 0) := by
  have hok : ∀ p ∈ pulls,
      (AboveTheFold (GetVersionStringFromPullRequest p) req.version.alreadySeen).isOk = true :=
    fun p hp => ledgerOk_above_isOk hledger (hrange p hp)
  have hloop := checkLoop_core fp mgr req.version.alreadySeen pulls hok
  rw [Check_core fp req mgr pulls hsrc hlist, hloop] at hresp
  injection hresp with hresp
  subst hresp
  intro v hv
  have hTF := newT_append_newF_perm req.version.alreadySeen pulls hok
  have hcombPerm :
      (sortPulls (pulls.filter
          (fun p => AboveTheFold (GetVersionStringFromPullRequest p) req.version.alreadySeen =
            .ok true) ++
        pulls.filter
          (fun p => AboveTheFold (GetVersionStringFromPullRequest p) req.version.alreadySeen =
            .ok false))).Perm pulls :=
    (sortPulls_perm _).trans hTF
  have hTne : pulls.filter
      (fun p => AboveTheFold (GetVersionStringFromPullRequest p) req.version.alreadySeen =
        .ok true) ≠ [] := by
    obtain ⟨p0, hp0, hfold0⟩ := hsome
    exact List.ne_nil_of_mem (List.mem_filter.mpr ⟨hp0, by simp [hfold0]⟩)
  have hcombne : sortPulls (pulls.filter
      (fun p => AboveTheFold (GetVersionStringFromPullRequest p) req.version.alreadySeen =
        .ok true) ++
      pulls.filter
        (fun p => AboveTheFold (GetVersionStringFromPullRequest p) req.version.alreadySeen =
          .ok false)) ≠ [] := by
    intro h0
    have hl := congrArg List.length h0
    rw [(sortPulls_perm _).length_eq, List.length_append] at hl
    simp only [List.length_nil] at hl
    have hz : (pulls.filter
        (fun p => AboveTheFold (GetVersionStringFromPullRequest p) req.version.alreadySeen =
          .ok true)).length = 0 := by omega
    exact hTne (List.length_eq_zero.mp hz)
  have hdecomb := decodeLedger_generateVersion _ hcombne
    (fun q hq => hrange q (hcombPerm.mem_iff.mp hq))
  have hvs := assembleResponse_mem_seen req.version _ _ hTne v hv
  rw [hvs]
  refine ⟨_, hdecomb, ?_, ?_, ?_⟩
  · intro p hp
    rw [((hcombPerm.map (fun q =>
        (⟨itoa q.number, q.tip.committedDate⟩ : AlreadySeenVersion))).filter _).length_eq]
    exact count_entry_one pulls p hp hdistinct
  · intro p hp
    exact List.mem_map_of_mem _ (hcombPerm.mem_iff.mpr hp)
  · intro idStr hid
    rw [List.length_eq_zero]
    apply List.filter_eq_nil_iff.mpr
    intro e he
    obtain ⟨q, hq, hqe⟩ := List.mem_map.mp he
    have hqid := hid q (hcombPerm.mem_iff.mp hq)
    simp [← hqe, hqid]

/-! ### Concrete instances: counterexample and witnesses -/

set_option maxRecDepth 10000

/-- Claim C2 counterexample: with snapshot `[pull1]` (its only sequence id is
1, its tip timestamp equals its ledger entry) and the well-formed previous
ledger `"1:5,2:7"`, nothing is above the fold and `Check` re-emits the
previous `Version` unchanged; that returned `Version`'s ledger still decodes
to an entry for id `2`, a record absent from the snapshot, refuting the
claim for the re-emitted previous `Version`. -/
theorem check_ledger_completeness_counterexample :
    Check fpNone (reqOf (gs "1:5,2:7")) (ghOf [pull1]) = .ok [verOf (gs "1:5,2:7")] ∧
    decodeLedger (verOf (gs "1:5,2:7")).alreadySeen =
      .ok [⟨gs "1", 5⟩, ⟨gs "2", 7⟩] ∧
    (∀ q ∈ [pull1], itoa q.number ≠ gs "2") := by
  refine ⟨?_, by decide, by decide⟩
  decide

/-- Witness for the C1 theorem at the spec's own scenario
`prev.AlreadySeen = "P1:notanumber"` with a one-record snapshot. -/
theorem check_malformed_ledger_entry_fails_witness :
    ∃ f, Check fpNone (reqOf (gs "P1:notanumber")) (ghOf [pull1]) =
      .error (.malformedLedgerEntry f) :=
  check_malformed_ledger_entry_fails fpNone (reqOf (gs "P1:notanumber")) (ghOf [pull1])
    pull1 [] rfl rfl (by decide) (by decide) (by decide)

/-- Witness for the amended C2 theorem: bootstrap over the snapshot
`[pull1]`, whose output `Version` carries the ledger `"1:5"`. -/
theorem check_new_ledger_complete_witness :
    ∃ Ldec, decodeLedger (NewVersion pull1 (gs "1:5")).alreadySeen = .ok Ldec ∧
      (∀ p ∈ [pull1], (Ldec.filter (fun e => e.pr = itoa p.number)).length = 1) ∧
      (∀ p ∈ [pull1],
        (⟨itoa p.number, p.tip.committedDate⟩ : AlreadySeenVersion) ∈ Ldec) ∧
      (∀ idStr : GoString, (∀ p ∈ [pull1], itoa p.number ≠ idStr) →
        (Ldec.filter (fun e => e.pr = idStr)).length = 0) :=
  check_new_ledger_complete fpNone (reqOf (gs "")) (ghOf [pull1]) [pull1]
    [NewVersion pull1 (gs "1:5")] rfl rfl (by decide) (by decide) (by decide) (by decide)
    (by decide) (NewVersion pull1 (gs "1:5")) (by decide)

/-- Witness for the C3 theorem: two records with distinct timestamps and an
empty previous ledger collapse to the maximum-timestamp record. -/
theorem check_bootstrap_collapse_witness :
    Check fpNone (reqOf (gs "")) (ghOf [pull1, pull2]) =
      .ok [NewVersion pull2 (GenerateVersion (sortPulls [pull1, pull2]))] :=
  check_bootstrap_collapse fpNone (reqOf (gs "")) (ghOf [pull1, pull2]) [pull1, pull2]
    pull2 rfl rfl rfl (by decide) (by decide)

/-- Witness for the C4 theorem: the snapshot `[pull1]` against the ledger
`"1:5"` has not advanced, so the previous `Version` is re-emitted. -/
theorem check_steady_state_reemits_prev_witness :
    Check fpNone (reqOf (gs "1:5")) (ghOf [pull1]) =
      .ok [(reqOf (gs "1:5")).version] :=
  check_steady_state_reemits_prev fpNone (reqOf (gs "1:5")) (ghOf [pull1]) [pull1]
    [⟨gs "1", 5⟩] rfl rfl (by decide) (by decide) (by decide) (by decide) (by decide)
    (by decide)

/-- Witness for the C6 theorem at the spec's own scenario
`prev.AlreadySeen = "garbage"`. -/
theorem aboveTheFold_no_colon_all_new_witness :
    (∀ v : GoString,
      AboveTheFold v (reqOf (gs "garbage")).version.alreadySeen = .ok true) ∧
    checkLoop fpNone (ghOf [pull1]) coreSource true
      (reqOf (gs "garbage")).version.alreadySeen [pull1] = .ok ([pull1], []) ∧
    ∃ resp, Check fpNone (reqOf (gs "garbage")) (ghOf [pull1]) = .ok resp :=
  aboveTheFold_no_colon_all_new fpNone (reqOf (gs "garbage")) (ghOf [pull1]) [pull1]
    rfl rfl (by decide)

/-- Witness for the C7 theorem on a concrete successful invocation. -/
theorem check_response_sorted_witness :
    List.Pairwise (fun a b : Version => a.committedDate ≤ b.committedDate)
      [NewVersion pull1 (gs "1:5")] :=
  check_response_sorted fpNone (reqOf (gs "")) (ghOf [pull1])
    [NewVersion pull1 (gs "1:5")] (by decide)

/-- Witness for the C8 theorem: two managers with identical observations. -/
theorem check_pure_function_witness :
    Check fpNone (reqOf (gs "")) (ghOf [pull1]) =
      Check fpNone (reqOf (gs "")) (ghOf [pull1]) :=
  check_pure_function fpNone (reqOf (gs "")) (ghOf [pull1]) (ghOf [pull1]) rfl rfl

/-- Witness for the C9 theorem's totality part: an entry with a `:` never
reaches the index-out-of-range branch (it fails as malformed instead). -/
theorem extract_entry_without_colon_panics_witness :
    ExtractVersionFromVersionString (gs "1:x") ≠ .error .indexOutOfRange :=
  extract_entry_without_colon_panics.2.2 (gs "1:x") (by decide)

/-- Witness for the C10 theorem on a concrete successful invocation. -/
theorem check_versions_share_ledger_witness :
    (NewVersion pull1 (gs "1:5")).alreadySeen = (NewVersion pull1 (gs "1:5")).alreadySeen :=
  check_versions_share_ledger fpNone (reqOf (gs "")) (ghOf [pull1])
    [NewVersion pull1 (gs "1:5")] (by decide) (NewVersion pull1 (gs "1:5")) (by decide)
    (NewVersion pull1 (gs "1:5")) (by decide)

/-- Claim C5 (code bug): `pullD`'s tip timestamp 10 equals its ledger entry
`1:10`, so the classifier puts it below the fold, while `pullA` (tip 41 over
entry `4:40`) is above it; but with three new records (slice length 3 inside
capacity 4) and one hidden record, Go's `append` reuses the backing array,
the in-place sort by sequence id scrambles `newPullsToReturn` into the prefix
`[#1, #2, #3]` of the combined order, and `CheckGo` — `Check` under Go's
mandated slice semantics — emits a `Version` built from the equal-timestamp
record `pullD` while dropping the new record `pullA`.  The claim (and the
spec's strict-advancement rule, which the partition and the loop comment in
the code also intend) is violated by the running code at this input. -/
theorem equal_timestamp_emitted_by_aliasing :
    AboveTheFold (GetVersionStringFromPullRequest pullD)
      (gs "1:10,2:20,3:30,4:40") = .ok false ∧
    AboveTheFold (GetVersionStringFromPullRequest pullA)
      (gs "1:10,2:20,3:30,4:40") = .ok true ∧
    CheckGo fpNone (reqOf (gs "1:10,2:20,3:30,4:40"))
      (ghOf [pullA, pullB, pullC, pullD]) =
      .ok [NewVersion pullD (gs "1:10,2:21,3:31,4:41"),
        NewVersion pullB (gs "1:10,2:21,3:31,4:41"),
        NewVersion pullC (gs "1:10,2:21,3:31,4:41")] := by
  refine ⟨by decide, by decide, ?_⟩
  decide
